import Mathlib

/-!
Verification of the kitty low-level field/container model
(src/kitty/model/low_level/container.py and the driver in
src/kitty/model/high_level/base.py).

Bit buffers are lists of booleans.  A `Field` is either a leaf (an
abstract external field given by its default rendering and its list of
mutation renderings, per the Field contract of the spec) or a container
with a variant tag, children, a current mutation index, a field cursor,
a ready flag and the stored mutation count.

Code that this repository uses but that is not under src/ (the BaseField
driver, the encoders, khash, the mutating flag, upward name resolution)
is modelled from the spec; each such definition carries a doc comment
starting with `Modelled from the spec:`.
-/

namespace Kitty

/-- A bit buffer: an ordered sequence of bits. -/
abbrev Bits := List Bool

/-- Modelled from the spec: the two standard encoders of kitty
(kitty/model/low_level/encoder.py is not under src/): `dflt` is the
passthrough encoder ENC_BITS_DEFAULT, `byteAligned` zero-pads to a
multiple of 8 bits at the end (ENC_BITS_BYTE_ALIGNED). -/
inductive Enc where
  | dflt : Enc
  | byteAligned : Enc
deriving DecidableEq, Repr

/-- Modelled from the spec: `encode(buf) -> buf` for the two standard
encoders. -/
def Enc.encode : Enc → Bits → Bits
  | .dflt, b => b
  | .byteAligned, b => b ++ List.replicate ((8 - b.length % 8) % 8) false

/-- Variant tag of a container, one per Container subclass of
container.py that the claims mention.  `rep` carries min_times,
max_times and step (validated, hence natural numbers); `trunc` carries
max_size; `pad` carries pad_length and pad_data; `takeFrom` carries the
resolved min_elements and max_elements together with the current state
of its deterministic RNG (the RNG state is mutable, everything else is
structural). -/
inductive Variant where
  | plain : Variant
  | template : Variant
  | metaF : Variant
  | oneOf : Variant
  | rep : Nat → Nat → Nat → Variant
  | trunc : Nat → Variant
  | pad : Nat → Bits → Variant
  | takeFrom : Nat → Nat → Nat → Variant
deriving DecidableEq, Repr

/-- A field of the template tree.

`leaf name fuzzable dflt muts ci` is an abstract leaf field: `dflt` is
its default rendering, `muts` the renderings of its mutations in order,
`ci` its current mutation index (−1 = default state).

`cont name fuzzable enc v ch ci fi rd st` is a container
(container.py, class Container and subclasses): `v` the variant tag,
`ch` the ordered child list `_fields`, `ci` the current index,
`fi` the cursor `_field_idx`, `rd` the `_ready` flag and `st` the
stored `_num_mutations`. -/
inductive Field where
  | leaf : Option String → Bool → Bits → List Bits → Int → Field
  | cont : Option String → Bool → Enc → Variant → List Field → Int → Nat → Bool → Nat → Field

/-- Current mutation index of a field (BaseField `_current_index`). -/
def ciOf : Field → Int
  | .leaf _ _ _ _ ci => ci
  | .cont _ _ _ _ _ ci _ _ _ => ci

/-- Replace the current mutation index of a field. -/
def setCi : Field → Int → Field
  | .leaf n fz d ms _, x => .leaf n fz d ms x
  | .cont n fz e v ch _ fi rd st, x => .cont n fz e v ch x fi rd st

/-- Name of a field. -/
def nameOf : Field → Option String
  | .leaf n _ _ _ _ => n
  | .cont n _ _ _ _ _ _ _ _ => n

/-- Children of a field (empty for a leaf). -/
def childrenOf : Field → List Field
  | .leaf _ _ _ _ _ => []
  | .cont _ _ _ _ ch _ _ _ _ => ch

/-- Cursor `_field_idx` of a container (0 for a leaf). -/
def fiOf : Field → Nat
  | .leaf _ _ _ _ _ => 0
  | .cont _ _ _ _ _ _ fi _ _ => fi

/-- Variant tag of a field (`plain` for a leaf). -/
def variantOf : Field → Variant
  | .leaf _ _ _ _ _ => .plain
  | .cont _ _ _ v _ _ _ _ _ => v

mutual
/-- Size measure of a field that ignores all mutable state (the current
index is an `Int`, whose `sizeOf` depends on its value, so `sizeOf` is
not usable as a termination measure for state-changing recursion). -/
def weight : Field → Nat
  | .leaf _ _ _ _ _ => 1
  | .cont _ _ _ _ ch _ _ _ _ => 1 + weightL ch

/-- Total weight of a list of fields. -/
def weightL : List Field → Nat
  | [] => 0
  | c :: fs => weight c + weightL fs
end

@[simp] theorem weight_setCi (f : Field) (x : Int) : weight (setCi f x) = weight f := by
  cases f <;> simp [setCi, weight]

theorem weight_pos (f : Field) : 0 < weight f := by
  cases f <;> simp [weight]

theorem weight_le_weightL_of_mem {c : Field} {fs : List Field} (h : c ∈ fs) :
    weight c ≤ weightL fs := by
  induction fs with
  | nil => cases h
  | cons a as ih =>
    rcases h with _ | h
    · simp [weightL]
    · have := ih (by assumption)
      simp [weightL]
      omega

/-- The mutation-count formula `_calculate_mutations` of each variant
(container.py lines 286-287, 571-572, 604-608; TakeFrom inherits
OneOf).  `nch` is the number of children, `num` the children sum. -/
def calcMut (v : Variant) (nch : Nat) (num : Nat) : Nat :=
  match v with
  | .oneOf => num + nch
  | .takeFrom _ _ _ => num + nch
  | .rep mn mx stp => num + (mx - mn) / stp
  | _ => num

mutual
/-- The (frozen) number of mutations of a field: the value computed by
`_get_ready` and returned by the public `num_mutations` (0 when the
field is not fuzzable, per the Field contract of the spec). -/
def numMut : Field → Nat
  | .leaf _ fz _ ms _ => if fz then ms.length else 0
  | .cont _ fz _ v ch _ _ _ _ => if fz then calcMut v ch.length (sumNum ch) else 0

/-- Sum of the children's mutation counts (Container._get_ready,
container.py lines 160-169). -/
def sumNum : List Field → Nat
  | [] => 0
  | c :: fs => numMut c + sumNum fs
end

theorem sumNum_eq_map_sum (fs : List Field) : sumNum fs = (fs.map numMut).sum := by
  induction fs with
  | nil => simp [sumNum]
  | cons c cs ih => simp [sumNum, ih]

/-- The state of a freshly reseeded TakeFrom RNG: seeded with
`0x1234 * max_elements + min_elements` (container.py lines 641-650 and
682-684). -/
def tfSeedVal (mn mx : Nat) : Nat := 4660 * mx + mn

/-- Reset of the variant state: only TakeFrom has mutable variant state,
its RNG, which `reset` re-seeds (container.py lines 682-684). -/
def resetVariant : Variant → Variant
  | .takeFrom mn mx _ => .takeFrom mn mx (tfSeedVal mn mx)
  | v => v

mutual
/-- `reset` (container.py lines 110-117 together with the BaseField
reset of the spec): restore `_current_index = -1`, reset every child,
rewind `_field_idx` to 0; TakeFrom additionally re-seeds its RNG. -/
def resetF : Field → Field
  | .leaf n fz d ms _ => .leaf n fz d ms (-1)
  | .cont n fz e v ch _ _ rd st => .cont n fz e (resetVariant v) (resetL ch) (-1) 0 rd st

/-- Reset every field of a list. -/
def resetL : List Field → List Field
  | [] => []
  | c :: fs => resetF c :: resetL fs
end

theorem resetL_eq_map (fs : List Field) : resetL fs = fs.map resetF := by
  induction fs with
  | nil => simp [resetL]
  | cons c cs ih => simp [resetL, ih]

mutual
/-- Modelled from the spec: the public `mutate` of BaseField
(kitty/model/low_level/field.py is not under src/), whose structure is
the one of BaseModel.mutate (src/kitty/model/high_level/base.py lines
90-101): if the current index is the last index (`num_mutations - 1`,
which is −1 when there are no mutations) return False without changing
anything; otherwise advance `_current_index`, run the variant hook
`_mutate`, and return True. -/
def mutateF (f : Field) : Field × Bool :=
  if ciOf f = (numMut f : Int) - 1 then (f, false)
  else ((doMutate (setCi f (ciOf f + 1))).1, true)
termination_by 3 * weight f + 1
decreasing_by
  all_goals simp [weight_setCi]

/-- The `_mutate` hook of each variant:
Container._mutate (lines 171-180) is the odometer `odoStep`;
Repeat._mutate (lines 574-576) runs it only once the length phase is
over (`_current_index >= _repeats`);
OneOf._mutate (lines 610-616, inherited by TakeFrom) selects child
`_current_index` during the first `len(fields)` mutations, rewinds the
cursor at index `len(fields)`, and otherwise falls through to the
odometer.  A leaf's `_mutate` changes nothing observable here. -/
def doMutate (f : Field) : Field × Bool :=
  match f with
  | .leaf n fz d ms ci => (.leaf n fz d ms ci, true)
  | .cont n fz e v ch ci fi rd st =>
    match v with
    | .rep mn mx stp =>
      if ci < (((mx - mn) / stp : Nat) : Int) then
        (.cont n fz e (.rep mn mx stp) ch ci fi rd st, true)
      else
        let r := odoStep ch fi
        (.cont n fz e (.rep mn mx stp) r.1 ci r.2.1 rd st, r.2.2)
    | .oneOf =>
      if ci < (ch.length : Int) then
        (.cont n fz e .oneOf ch ci ci.toNat rd st, true)
      else
        let fi2 := if ci = (ch.length : Int) then 0 else fi
        let r := odoStep ch fi2
        (.cont n fz e .oneOf r.1 ci r.2.1 rd st, r.2.2)
    | .takeFrom mn mx rg =>
      if ci < (ch.length : Int) then
        (.cont n fz e (.takeFrom mn mx rg) ch ci ci.toNat rd st, true)
      else
        let fi2 := if ci = (ch.length : Int) then 0 else fi
        let r := odoStep ch fi2
        (.cont n fz e (.takeFrom mn mx rg) r.1 ci r.2.1 rd st, r.2.2)
    | w =>
      let r := odoStep ch fi
      (.cont n fz e w r.1 ci r.2.1 rd st, r.2.2)
termination_by 3 * weight f
decreasing_by all_goals simp [weight]; omega

/-- Container._mutate (container.py lines 171-180): starting at the
cursor, try to mutate each child in turn; on success record the cursor
and stop; a child that fails is reset and the cursor moves on; when the
loop exhausts, report failure (the cursor then rests on the last child,
or is unchanged when the loop never ran). -/
def odoStep : List Field → Nat → List Field × Nat × Bool
  | [], i => ([], i, false)
  | c :: fs, Nat.succ j =>
    let r := odoStep fs j
    (c :: r.1, r.2.1 + 1, r.2.2)
  | c :: fs, 0 =>
    let r := mutateF c
    if r.2 then (r.1 :: fs, 0, true)
    else
      let q := odoStep fs 0
      (resetF r.1 :: q.1, if fs.isEmpty then 0 else q.2.1 + 1, q.2.2)
termination_by fs _ => 3 * weightL fs + 2
decreasing_by
  all_goals simp [weightL]
  all_goals first
    | exact weight_pos _
    | omega
end

mutual
/-- `render`.  Leaf: the rendering at the current index (default when
not mutated), per the Field contract.  Container.render (lines 96-108)
concatenates the children and stores the encoded result
(`set_current_value`, modelled from the spec as applying the field's
encoder).  Meta.render (487-492) is empty; OneOf.render (596-602)
renders only the selected child, encoded; TakeFrom.render (686-687)
returns the selected child's rendering raw; Repeat.render (578-584)
repeats the encoded children `times` times, where `times` exceeds
`min_times` only during the length phase (`_mutating` is modelled from
the spec as `0 ≤ current_index < num_mutations`); Trunc.render
(753-757) slices to `max_size` bits; Pad.render (511-520) right-pads
with `pad_data` up to `pad_length` bits. -/
def renderF : Field → Bits
  | .leaf _ _ d ms ci => if ci < 0 then d else ms.getD ci.toNat d
  | .cont n fz e v ch ci fi rd st =>
    match v with
    | .metaF => []
    | .oneOf => e.encode (renderIdx ch fi)
    | .takeFrom _ _ _ => renderIdx ch fi
    | .rep mn mx stp =>
      let inner := e.encode (renderL ch)
      let nm := numMut (.cont n fz e (.rep mn mx stp) ch ci fi rd st)
      let times := if 0 ≤ ci ∧ ci < (nm : Int) ∧ ci < (((mx - mn) / stp : Nat) : Int)
        then mn + ci.toNat * stp else mn
      e.encode (List.flatten (List.replicate times inner))
    | .trunc m => (e.encode (renderL ch)).take m
    | .pad pl pd =>
      let r := e.encode (renderL ch)
      if r.length < pl then
        e.encode (r ++ (List.flatten (List.replicate ((pl - r.length) / pd.length + 1) pd)).take (pl - r.length))
      else r
    | _ => e.encode (renderL ch)

/-- Concatenation of the children's renderings in order. -/
def renderL : List Field → Bits
  | [] => []
  | c :: fs => renderF c ++ renderL fs

/-- Rendering of the child at the cursor (`_fields[_field_idx]`);
empty when the cursor is out of range (unreachable in valid states). -/
def renderIdx : List Field → Nat → Bits
  | [], _ => []
  | c :: _, 0 => renderF c
  | _ :: fs, Nat.succ j => renderIdx fs j
end

/-- Modelled from the spec: the public `num_mutations` value a field
reports once ready: the stored count for a fuzzable field, 0 otherwise
(BaseField.num_mutations is not under src/). -/
def pubOf : Field → Nat
  | .leaf _ fz _ ms _ => if fz then ms.length else 0
  | .cont _ fz _ _ _ _ _ _ st => if fz then st else 0

/-- Sum of the children's public mutation counts, as accumulated by
Container._get_ready (container.py lines 160-169). -/
def sumPub (fs : List Field) : Nat := (fs.map pubOf).sum

/-- The variant-state part of `_get_ready`: TakeFrom._get_ready
(container.py lines 641-650) seeds the RNG with
`seed * max_elements + min_elements` (the subsequent subset sampling of
`_rebuild_fields` is not modelled on the main tree: a `takeFrom`
container here stands for the already rebuilt tree; the option-typed
defaulting of min/max is modelled by the standalone TakeFrom machine
below). -/
def readyVariant : Variant → Variant
  | .takeFrom mn mx _ => .takeFrom mn mx (tfSeedVal mn mx)
  | v => v

mutual
/-- `_get_ready` (container.py lines 160-169): when not ready, ready
every child, sum their public mutation counts, store the variant's
`_calculate_mutations` of that sum and set the ready flag; when
already ready, do nothing. -/
def getReadyF : Field → Field
  | .leaf n fz d ms ci => .leaf n fz d ms ci
  | .cont n fz e v ch ci fi rd st =>
    if rd then .cont n fz e v ch ci fi rd st
    else
      let ch2 := getReadyL ch
      .cont n fz e (readyVariant v) ch2 ci fi true
        (calcMut (readyVariant v) ch2.length (sumPub ch2))
termination_by f => 2 * weight f
decreasing_by
  all_goals simp [weight, weightL]
  all_goals omega

/-- Ready every field of a list in order. -/
def getReadyL : List Field → List Field
  | [] => []
  | c :: fs => getReadyF c :: getReadyL fs
termination_by fs => 2 * weightL fs + 1
decreasing_by
  all_goals simp [weight, weightL]
  all_goals try have := weight_pos c
  all_goals omega
end

/-- 2^32: the hash is a 32-bit value. -/
def M32 : Nat := 4294967296

/-- Modelled from the spec: one mixing step of `khash`, kitty.core's
stable 32-bit avalanche mixer (kitty/core is not under src/; the spec
fixes only that it is a stable 32-bit mixer). -/
def mixStep (acc x : Nat) : Nat :=
  (((acc % M32) ^^^ (x % M32)) * 2654435761 + 2654435769) % M32

/-- Modelled from the spec: `khash(*args)`, folding the mixer over the
arguments; always a 32-bit value. -/
def khash (args : List Nat) : Nat := args.foldl mixStep 2166136261 % M32

/-- Hash of a string (used for type names), folded character by
character through the mixer. -/
def strHash (s : String) : Nat := (s.toList.map Char.toNat).foldl mixStep 5381

/-- Injection of a bit buffer into the mixer's argument space (used for
Pad's pad_data parameter). -/
def bitsKey (b : Bits) : Nat := b.foldl (fun a bit => 2 * a + (if bit then 1 else 0)) 1

/-- Python type name of each variant, the seed of the structural hash
(per the spec each field contributes a hash built from its type
name). -/
def vName : Variant → String
  | .plain => "Container"
  | .template => "Template"
  | .metaF => "Meta"
  | .oneOf => "OneOf"
  | .rep _ _ _ => "Repeat"
  | .trunc _ => "Trunc"
  | .pad _ _ => "Pad"
  | .takeFrom _ _ _ => "TakeFrom"

/-- One step of Container.hash's loop (container.py lines 81-86):
`hashed = khash(hashed + f.hash())`. -/
def hashAcc (h x : Nat) : Nat := khash [h + x]

mutual
/-- The structural hash.  Container.hash (container.py lines 81-86)
starts from the base hash of the type name (modelled from the spec) and
folds `khash(hashed + child.hash())` over the children; the variants
then fold their structural parameters: Repeat.hash (586-588) min, max,
step and repeats; Trunc.hash (759-761) max_size; Pad.hash (522-524)
pad_length and pad_data; TakeFrom.hash (689-691) min_elements,
max_elements and the seed constant.  No mutable state is read. -/
def hashF : Field → Nat
  | .leaf _ _ _ _ _ => khash [strHash "BaseField"]
  | .cont _ _ _ v ch _ _ _ _ =>
    let folded := (hashL ch).foldl hashAcc (khash [strHash (vName v)])
    match v with
    | .rep mn mx stp => khash [folded, mn, mx, stp, (mx - mn) / stp]
    | .trunc m => khash [folded, m]
    | .pad pl pd => khash [folded, pl, bitsKey pd]
    | .takeFrom mn mx _ => khash [folded, mn, mx, 4660]
    | _ => folded

/-- The hashes of the fields of a list, in order. -/
def hashL : List Field → List Nat
  | [] => []
  | c :: fs => hashF c :: hashL fs
end

theorem hashL_eq_map (fs : List Field) : hashL fs = fs.map hashF := by
  induction fs with
  | nil => simp [hashL]
  | cons c cs ih => simp [hashL, ih]

/-- State after one public `mutate` call. -/
def mutGo (f : Field) : Field := (mutateF f).1

/-- Result (True/False) of one public `mutate` call. -/
def mutRes (f : Field) : Bool := (mutateF f).2

/-- State after `k` public `mutate` calls. -/
def mutK : Nat → Field → Field
  | 0, f => f
  | k + 1, f => mutGo (mutK k f)

/-- The sequence of `render()` outputs of a run of `m` mutate-render
steps from a given state. -/
def runOuts (f : Field) (m : Nat) : List Bits :=
  (List.range m).map (fun k => renderF (mutK (k + 1) f))

@[simp] theorem ciOf_setCi (f : Field) (x : Int) : ciOf (setCi f x) = x := by
  cases f <;> simp [ciOf, setCi]

@[simp] theorem ciOf_resetF (f : Field) : ciOf (resetF f) = -1 := by
  cases f <;> simp [ciOf, resetF]

@[simp] theorem resetVariant_idem (v : Variant) :
    resetVariant (resetVariant v) = resetVariant v := by
  cases v <;> simp [resetVariant]

/-- Structural induction on fields with the membership form of the
child hypothesis. -/
theorem Field.recMem {P : Field → Prop}
    (hl : ∀ n fz d ms ci, P (.leaf n fz d ms ci))
    (hc : ∀ n fz e v ch ci fi rd st, (∀ c ∈ ch, P c) →
      P (.cont n fz e v ch ci fi rd st)) :
    ∀ f, P f := fun f =>
  match f with
  | .leaf n fz d ms ci => hl n fz d ms ci
  | .cont n fz e v ch ci fi rd st =>
    hc n fz e v ch ci fi rd st (fun c hmem => Field.recMem hl hc c)
termination_by f => weight f
decreasing_by
  have h1 := weight_le_weightL_of_mem hmem
  simp [weight]
  omega

theorem mutateF_of_last {f : Field} (h : ciOf f = (numMut f : Int) - 1) :
    mutateF f = (f, false) := by
  rw [mutateF, if_pos h]

theorem mutateF_of_not_last {f : Field} (h : ¬ ciOf f = (numMut f : Int) - 1) :
    mutateF f = ((doMutate (setCi f (ciOf f + 1))).1, true) := by
  rw [mutateF, if_neg h]

theorem mutateF_false_fix {f : Field} (h : (mutateF f).2 = false) :
    (mutateF f).1 = f := by
  by_cases hlast : ciOf f = (numMut f : Int) - 1
  · rw [mutateF_of_last hlast]
  · rw [mutateF_of_not_last hlast] at h
    simp at h

@[simp] theorem odoStep_nil (i : Nat) : odoStep [] i = ([], i, false) := by
  rw [odoStep]

@[simp] theorem odoStep_succ (c : Field) (fs : List Field) (j : Nat) :
    odoStep (c :: fs) (j + 1) =
      ((c :: (odoStep fs j).1, (odoStep fs j).2.1 + 1, (odoStep fs j).2.2)) := by
  rw [odoStep]

theorem odoStep_zero_true {c c1 : Field} (fs : List Field)
    (h : mutateF c = (c1, true)) :
    odoStep (c :: fs) 0 = (c1 :: fs, 0, true) := by
  rw [odoStep, h]
  simp

theorem odoStep_zero_false {c c1 : Field} (fs : List Field)
    (h : mutateF c = (c1, false)) :
    odoStep (c :: fs) 0 =
      (resetF c1 :: (odoStep fs 0).1,
        if fs.isEmpty then 0 else (odoStep fs 0).2.1 + 1,
        (odoStep fs 0).2.2) := by
  rw [odoStep, h]
  simp

theorem calcMut_resetVariant (v : Variant) (a b : Nat) :
    calcMut (resetVariant v) a b = calcMut v a b := by
  cases v <;> simp [resetVariant, calcMut]

theorem calcMut_readyVariant (v : Variant) (a b : Nat) :
    calcMut (readyVariant v) a b = calcMut v a b := by
  cases v <;> simp [readyVariant, calcMut]

theorem numMut_cont (n : Option String) (fz : Bool) (e : Enc) (v : Variant)
    (ch : List Field) (ci : Int) (fi : Nat) (rd : Bool) (st : Nat) :
    numMut (.cont n fz e v ch ci fi rd st) =
      if fz then calcMut v ch.length (ch.map numMut).sum else 0 := by
  rw [numMut, sumNum_eq_map_sum]

theorem ciOf_doMutate (f : Field) : ciOf (doMutate f).1 = ciOf f := by
  cases f with
  | leaf n fz d ms ci => rw [doMutate]
  | cont n fz e v ch ci fi rd st =>
    cases v <;> simp only [doMutate] <;> (try split) <;> simp [ciOf]

theorem ciOf_mutGo (f : Field) :
    ciOf (mutGo f) =
      if ciOf f = (numMut f : Int) - 1 then ciOf f else ciOf f + 1 := by
  by_cases h : ciOf f = (numMut f : Int) - 1
  · simp [mutGo, mutateF_of_last h, h]
  · simp [mutGo, mutateF_of_not_last h, h, ciOf_doMutate]

/-- The child lists produced by the odometer keep the mutation count of
every child, assuming each child keeps its count under mutate and
reset. -/
theorem odoStep_map_numMut (fs : List Field) (i : Nat)
    (IH : ∀ c ∈ fs, numMut (resetF c) = numMut c ∧ numMut (mutGo c) = numMut c) :
    (odoStep fs i).1.map numMut = fs.map numMut := by
  induction fs generalizing i with
  | nil => simp
  | cons c cs ih =>
    have IHc := IH c (by simp)
    have IHcs : ∀ x ∈ cs, numMut (resetF x) = numMut x ∧ numMut (mutGo x) = numMut x :=
      fun x hx => IH x (by simp [hx])
    cases i with
    | succ j => simp [ih j IHcs]
    | zero =>
      rcases h : mutateF c with ⟨c1, b⟩
      cases b with
      | true =>
        rw [odoStep_zero_true cs h]
        have hc1 : c1 = mutGo c := by simp [mutGo, h]
        simp [hc1, IHc.2]
      | false =>
        rw [odoStep_zero_false cs h]
        have hc1 : c1 = c := by
          have := mutateF_false_fix (f := c) (by simp [h])
          rw [h] at this
          exact this
        subst hc1
        simp [IHc.1, ih 0 IHcs]

/-- Mutation and reset never change a field's (frozen) mutation
count. -/
theorem numMut_stable : ∀ f : Field, numMut (resetF f) = numMut f ∧ numMut (mutGo f) = numMut f := by
  intro f
  induction f using Field.recMem with
  | hl n fz d ms ci =>
    constructor
    · simp [resetF, numMut]
    · by_cases h : ciOf (Field.leaf n fz d ms ci) = (numMut (.leaf n fz d ms ci) : Int) - 1
      · simp [mutGo, mutateF_of_last h]
      · simp [mutGo, mutateF_of_not_last h, setCi, doMutate, numMut]
  | hc n fz e v ch ci fi rd st IH =>
    have IHsplit : ∀ c ∈ ch, numMut (resetF c) = numMut c ∧ numMut (mutGo c) = numMut c :=
      fun c hc => (IH c hc)
    have hmapr : (ch.map resetF).map numMut = ch.map numMut := by
      rw [List.map_map]
      exact List.map_congr_left (fun c hc => (IHsplit c hc).1)
    constructor
    · rw [resetF, resetL_eq_map]
      rw [numMut_cont, numMut_cont, calcMut_resetVariant, hmapr]
      simp
    · by_cases h : ciOf (Field.cont n fz e v ch ci fi rd st) =
        (numMut (.cont n fz e v ch ci fi rd st) : Int) - 1
      · simp [mutGo, mutateF_of_last h]
      · rw [mutGo, mutateF_of_not_last h]
        rw [setCi]
        have hodo := fun i => odoStep_map_numMut ch i IHsplit
        have hlen : ∀ i, ((odoStep ch i).1).length = ch.length := by
          intro i
          have := congrArg List.length (hodo i)
          simpa using this
        cases v <;> simp only [doMutate] <;>
          first
          | (rw [numMut_cont, numMut_cont, hodo, hlen])
          | (split <;> rw [numMut_cont, numMut_cont] <;>
              first
              | rfl
              | (rw [hodo, hlen]))

theorem numMut_resetF (f : Field) : numMut (resetF f) = numMut f :=
  (numMut_stable f).1

theorem numMut_mutGo (f : Field) : numMut (mutGo f) = numMut f :=
  (numMut_stable f).2

theorem numMut_mutK (k : Nat) (f : Field) : numMut (mutK k f) = numMut f := by
  induction k with
  | zero => rfl
  | succ k ih => rw [mutK, numMut_mutGo, ih]

/-- The child lists produced by the odometer have the same reset image
as the original children, assuming each child does. -/
theorem odoStep_map_resetF (fs : List Field) (i : Nat)
    (IH : ∀ c ∈ fs, resetF (resetF c) = resetF c ∧ resetF (mutGo c) = resetF c) :
    (odoStep fs i).1.map resetF = fs.map resetF := by
  induction fs generalizing i with
  | nil => simp
  | cons c cs ih =>
    have IHc := IH c (by simp)
    have IHcs : ∀ x ∈ cs, resetF (resetF x) = resetF x ∧ resetF (mutGo x) = resetF x :=
      fun x hx => IH x (by simp [hx])
    cases i with
    | succ j => simp [ih j IHcs]
    | zero =>
      rcases h : mutateF c with ⟨c1, b⟩
      cases b with
      | true =>
        rw [odoStep_zero_true cs h]
        have hc1 : c1 = mutGo c := by simp [mutGo, h]
        simp [hc1, IHc.2]
      | false =>
        rw [odoStep_zero_false cs h]
        have hc1 : c1 = c := by
          have := mutateF_false_fix (f := c) (by simp [h])
          rw [h] at this
          exact this
        subst hc1
        simp [IHc.1, ih 0 IHcs]

/-- Reset is idempotent and absorbs any single mutation: the state
after a reset does not depend on the mutations performed before it. -/
theorem resetF_stable : ∀ f : Field, resetF (resetF f) = resetF f ∧ resetF (mutGo f) = resetF f := by
  intro f
  induction f using Field.recMem with
  | hl n fz d ms ci =>
    constructor
    · simp [resetF]
    · by_cases h : ciOf (Field.leaf n fz d ms ci) = (numMut (.leaf n fz d ms ci) : Int) - 1
      · simp [mutGo, mutateF_of_last h]
      · simp [mutGo, mutateF_of_not_last h, setCi, doMutate, resetF]
  | hc n fz e v ch ci fi rd st IH =>
    have hmapr : (ch.map resetF).map resetF = ch.map resetF := by
      rw [List.map_map]
      exact List.map_congr_left (fun c hc => (IH c hc).1)
    constructor
    · rw [resetF, resetF, resetL_eq_map, resetL_eq_map, hmapr, resetVariant_idem]
    · by_cases h : ciOf (Field.cont n fz e v ch ci fi rd st) =
        (numMut (.cont n fz e v ch ci fi rd st) : Int) - 1
      · simp [mutGo, mutateF_of_last h]
      · rw [mutGo, mutateF_of_not_last h]
        rw [setCi]
        have hodo := fun i => odoStep_map_resetF ch i (fun c hc => IH c hc)
        cases v <;> simp only [doMutate] <;> (try split) <;>
          simp [resetF, resetL_eq_map, hodo]

theorem resetF_idem (f : Field) : resetF (resetF f) = resetF f :=
  (resetF_stable f).1

theorem resetF_mutGo (f : Field) : resetF (mutGo f) = resetF f :=
  (resetF_stable f).2

theorem resetF_mutK (k : Nat) (f : Field) : resetF (mutK k f) = resetF f := by
  induction k with
  | zero => rfl
  | succ k ih => rw [mutK, resetF_mutGo, ih]

theorem ciOf_mutK {f : Field} (h : ciOf f = -1) (k : Nat) :
    ciOf (mutK k f) = ((min k (numMut f) : Nat) : Int) - 1 := by
  induction k with
  | zero => simpa [mutK] using h
  | succ k ih =>
    rw [mutK, ciOf_mutGo, numMut_mutK, ih]
    rcases le_or_lt (numMut f) k with hk | hk
    · have hmin : min k (numMut f) = numMut f := by omega
      have hmin2 : min (k + 1) (numMut f) = numMut f := by omega
      rw [hmin, hmin2]
      simp
    · have hmin : min k (numMut f) = k := by omega
      have hmin2 : min (k + 1) (numMut f) = k + 1 := by omega
      have hne : (k : Int) - 1 ≠ (numMut f : Int) - 1 := by
        have : (k : Int) < (numMut f : Int) := by exact_mod_cast hk
        omega
      rw [hmin, hmin2, if_neg hne]
      push_cast
      ring

theorem mutRes_mutK {f : Field} (h : ciOf f = -1) (k : Nat) :
    mutRes (mutK k f) = decide (k < numMut f) := by
  have hci := ciOf_mutK h k
  have hnum := numMut_mutK k f
  rcases lt_or_ge k (numMut f) with hk | hk
  · have hmin : min k (numMut f) = k := by omega
    have hne : ciOf (mutK k f) ≠ (numMut (mutK k f) : Int) - 1 := by
      rw [hci, hnum, hmin]
      have : (k : Int) < (numMut f : Int) := by exact_mod_cast hk
      omega
    simp [mutRes, mutateF_of_not_last hne, hk]
  · have hmin : min k (numMut f) = numMut f := by omega
    have heq : ciOf (mutK k f) = (numMut (mutK k f) : Int) - 1 := by
      rw [hci, hnum, hmin]
    simp [mutRes, mutateF_of_last heq]
    omega

/-- C1: for every field in its default state (as a template is after
construction, and again after `reset`), the k-th `mutate()` call
(0-indexed) returns True exactly when `k < num_mutations()`: True
exactly `num_mutations()` times, then False forever; and `reset`
returns the field to the default state, after which the same count
restarts. -/
theorem C1_mutate_true_exactly_num (f : Field) (h0 : ciOf f = -1) :
    (∀ k : Nat, mutRes (mutK k f) = decide (k < numMut f)) ∧
      ciOf (resetF f) = -1 :=
  ⟨fun k => mutRes_mutK h0 k, ciOf_resetF f⟩

/-- Example leaf with two mutations. -/
def egLeafA : Field := .leaf (some "a") true [true] [[false], [true, true]] (-1)

/-- Example template enclosing `egLeafA`. -/
def egTemplate : Field :=
  .cont (some "Template") true .byteAligned .template [egLeafA] (-1) 0 true 2

theorem C1_witness :
    ciOf egTemplate = -1 ∧
      mutRes (mutK 2 egTemplate) = decide (2 < numMut egTemplate) ∧
      mutRes (mutK 0 egTemplate) = decide (0 < numMut egTemplate) :=
  ⟨rfl, (C1_mutate_true_exactly_num egTemplate rfl).1 2,
    (C1_mutate_true_exactly_num egTemplate rfl).1 0⟩

/-- C8: after `reset()`, driving the template through any number of
mutate/render steps produces a render sequence byte-identical to the
previous run from the same starting state (`resetF` erases every trace
of the `k` mutations performed in the previous run, including the
TakeFrom RNG state, which is re-seeded to the same value). -/
theorem C8_reset_replay (t : Field) (hfresh : resetF t = t) (k m : Nat) :
    runOuts (resetF (mutK k t)) m = runOuts t m := by
  rw [resetF_mutK, hfresh]

theorem C8_witness :
    resetF egTemplate = egTemplate ∧
      runOuts (resetF (mutK 3 egTemplate)) 2 = runOuts egTemplate 2 :=
  ⟨rfl, C8_reset_replay egTemplate rfl 3 2⟩

/-- Stored `_num_mutations` of a container (0 for a leaf). -/
def storedOf : Field → Nat
  | .leaf _ _ _ _ _ => 0
  | .cont _ _ _ _ _ _ _ _ st => st

mutual
/-- A tree none of whose containers has run `_get_ready` yet (the state
in which `Container.__init__` leaves every container). -/
def unreadyF : Field → Bool
  | .leaf _ _ _ _ _ => true
  | .cont _ _ _ _ ch _ _ rd _ => !rd && unreadyL ch

/-- All fields of the list are unready. -/
def unreadyL : List Field → Bool
  | [] => true
  | c :: fs => unreadyF c && unreadyL fs
end

theorem unreadyL_mem {fs : List Field} (h : unreadyL fs = true) :
    ∀ c ∈ fs, unreadyF c = true := by
  induction fs with
  | nil => intro c hc; cases hc
  | cons a as ih =>
    rw [unreadyL, Bool.and_eq_true] at h
    intro c hc
    rcases hc with _ | hc
    · exact h.1
    · exact ih h.2 c (by assumption)

theorem getReadyL_eq_map (fs : List Field) : getReadyL fs = fs.map getReadyF := by
  induction fs with
  | nil => simp [getReadyL]
  | cons c cs ih => simp [getReadyL, ih]

/-- Once `_get_ready` has run, the public `num_mutations` value equals
the frozen recursive count `numMut`. -/
theorem pubOf_getReadyF : ∀ f : Field, unreadyF f = true → pubOf (getReadyF f) = numMut f := by
  intro f
  induction f using Field.recMem with
  | hl n fz d ms ci =>
    intro _
    rw [getReadyF]
    simp [pubOf, numMut]
  | hc n fz e v ch ci fi rd st IH =>
    intro hun
    rw [unreadyF, Bool.and_eq_true] at hun
    have hrd : rd = false := by
      rcases hun.1 with h
      cases rd
      · rfl
      · simp at h
    subst hrd
    rw [getReadyF]
    simp only [if_neg (by simp : ¬ (false = true))]
    have hml : ∀ c ∈ ch, pubOf (getReadyF c) = numMut c :=
      fun c hc => IH c hc (unreadyL_mem hun.2 c hc)
    have hsum : sumPub (getReadyL ch) = (ch.map numMut).sum := by
      rw [getReadyL_eq_map, sumPub, List.map_map]
      exact congrArg List.sum (List.map_congr_left hml)
    have hlen : (getReadyL ch).length = ch.length := by
      rw [getReadyL_eq_map]
      exact List.length_map ch getReadyF
    rw [pubOf, numMut_cont, hsum, hlen, calcMut_readyVariant]

/-- `_get_ready` is idempotent: the second call sees the ready flag and
changes nothing. -/
theorem getReadyF_idem (f : Field) : getReadyF (getReadyF f) = getReadyF f := by
  cases f with
  | leaf n fz d ms ci => simp [getReadyF]
  | cont n fz e v ch ci fi rd st => cases rd <;> simp [getReadyF]

/-- C2: for a plain fuzzable container whose tree has not run
`_get_ready` yet, running `_get_ready` stores exactly the sum of the
children's mutation counts, the public `num_mutations` then returns
that sum, and the value is stable: a later `_get_ready` (as triggered
by any later `num_mutations()` call) changes nothing. -/
theorem C2_plain_container_sum (n : Option String) (e : Enc) (ch : List Field)
    (ci : Int) (fi : Nat) (st : Nat) (hun : unreadyL ch = true) :
    storedOf (getReadyF (.cont n true e .plain ch ci fi false st)) =
        (ch.map numMut).sum ∧
      pubOf (getReadyF (.cont n true e .plain ch ci fi false st)) =
        (ch.map numMut).sum ∧
      getReadyF (getReadyF (.cont n true e .plain ch ci fi false st)) =
        getReadyF (.cont n true e .plain ch ci fi false st) := by
  have hpub := pubOf_getReadyF (.cont n true e .plain ch ci fi false st)
    (by rw [unreadyF]; simpa using hun)
  have hnum : numMut (.cont n true e .plain ch ci fi false st) = (ch.map numMut).sum := by
    rw [numMut_cont]
    simp [calcMut]
  refine ⟨?_, by rw [hpub, hnum], getReadyF_idem _⟩
  have : pubOf (getReadyF (.cont n true e .plain ch ci fi false st)) =
      storedOf (getReadyF (.cont n true e .plain ch ci fi false st)) := by
    rw [getReadyF]
    simp only [if_neg (by simp : ¬ (false = true))]
    rw [pubOf, storedOf]
    simp
  rw [← this, hpub, hnum]

theorem C2_witness :
    unreadyL [egLeafA] = true ∧
      storedOf (getReadyF (.cont none true .dflt .plain [egLeafA] (-1) 0 false 0)) =
        ([egLeafA].map numMut).sum :=
  ⟨rfl, (C2_plain_container_sum none .dflt [egLeafA] (-1) 0 0 rfl).1⟩

/-- Generic form of the odometer child-list congruence: any observation
of the children that mutate and reset preserve is preserved by one
odometer step. -/
theorem odoStep_map_congr {α : Type} (φ : Field → α) (fs : List Field) (i : Nat)
    (IH : ∀ c ∈ fs, φ (resetF c) = φ c ∧ φ (mutGo c) = φ c) :
    (odoStep fs i).1.map φ = fs.map φ := by
  induction fs generalizing i with
  | nil => simp
  | cons c cs ih =>
    have IHc := IH c (by simp)
    have IHcs : ∀ x ∈ cs, φ (resetF x) = φ x ∧ φ (mutGo x) = φ x :=
      fun x hx => IH x (by simp [hx])
    cases i with
    | succ j => simp [ih j IHcs]
    | zero =>
      rcases h : mutateF c with ⟨c1, b⟩
      cases b with
      | true =>
        rw [odoStep_zero_true cs h]
        have hc1 : c1 = mutGo c := by simp [mutGo, h]
        simp [hc1, IHc.2]
      | false =>
        rw [odoStep_zero_false cs h]
        have hc1 : c1 = c := by
          have := mutateF_false_fix (f := c) (by simp [h])
          rw [h] at this
          exact this
        subst hc1
        simp [IHc.1, ih 0 IHcs]

/-- The structural hash reads no mutable state: mutate and reset leave
it unchanged. -/
theorem hashF_stable : ∀ f : Field, hashF (resetF f) = hashF f ∧ hashF (mutGo f) = hashF f := by
  intro f
  induction f using Field.recMem with
  | hl n fz d ms ci =>
    constructor
    · simp [resetF, hashF]
    · by_cases h : ciOf (Field.leaf n fz d ms ci) = (numMut (.leaf n fz d ms ci) : Int) - 1
      · simp [mutGo, mutateF_of_last h]
      · simp [mutGo, mutateF_of_not_last h, setCi, doMutate, hashF]
  | hc n fz e v ch ci fi rd st IH =>
    have hmap : hashL (ch.map resetF) = hashL ch := by
      rw [hashL_eq_map, hashL_eq_map, List.map_map]
      exact List.map_congr_left fun c hc => (IH c hc).1
    constructor
    · rw [resetF, resetL_eq_map]
      cases v <;> simp [hashF, resetVariant, vName, hmap]
    · by_cases h : ciOf (Field.cont n fz e v ch ci fi rd st) =
        (numMut (.cont n fz e v ch ci fi rd st) : Int) - 1
      · simp [mutGo, mutateF_of_last h]
      · rw [mutGo, mutateF_of_not_last h, setCi]
        have hodo : ∀ i : Nat, hashL (odoStep ch i).1 = hashL ch := by
          intro i
          rw [hashL_eq_map, hashL_eq_map]
          exact odoStep_map_congr hashF ch i (fun c hc => IH c hc)
        cases v <;> simp only [doMutate] <;> (try split) <;> simp [hashF, hodo]

/-- C9 (amended): `hash()` is a pure function of the tree's structural
definition: it is invariant under any number of `mutate` calls and
under `reset` (`render` is modelled as a pure function here, so it
cannot change the hash either).  The converse of the original claim
(every structural change changes the hash) cannot hold for a 32-bit
hash; see the counterexample. -/
theorem C9_hash_invariant (f : Field) (k : Nat) :
    hashF (mutK k f) = hashF f ∧ hashF (resetF f) = hashF f := by
  constructor
  · induction k with
    | zero => rfl
    | succ k ih =>
      rw [mutK, (hashF_stable (mutK k f)).2, ih]
  · exact (hashF_stable f).1

/-- A Repeat container with `min_times = 1`. -/
def hashCexA : Field := .cont none true .dflt (.rep 1 8589934592 1) [] (-1) 0 true 0

/-- The same container except `min_times = 1 + 2^32`: a changed variant
parameter, a different mutation count, yet the same 32-bit hash. -/
def hashCexB : Field :=
  .cont none true .dflt (.rep 4294967297 8589934592 1) [] (-1) 0 true 0

theorem C9_counterexample :
    variantOf hashCexA ≠ variantOf hashCexB ∧
      numMut hashCexA ≠ numMut hashCexB ∧
      hashF hashCexA = hashF hashCexB :=
  ⟨by decide, by decide, by decide⟩

/-- Repeat._check_times (container.py lines 559-569): the conjunction
of the four range checks; construction raises InvalidRange when it is
false. -/
def checkTimes (minT maxT stp : Int) : Bool :=
  decide (0 ≤ minT) && decide (0 < maxT) && decide (minT ≤ maxT) && decide (0 < stp)

/-- Repeat.__init__ (container.py lines 532-557): validate the range
parameters, then build the container with its variant parameters (the
repeats count `(max_times - min_times) / step` is derived in
`calcMut`/`doMutate`/`renderF` from the stored parameters). -/
def mkRepeat (fields : List Field) (minT maxT stp : Int) (e : Enc) (fz : Bool)
    (nm : Option String) : Except String Field :=
  if checkTimes minT maxT stp then
    .ok (.cont nm fz e (.rep minT.toNat maxT.toNat stp.toNat) fields (-1) 0 false 0)
  else .error "InvalidRange"

theorem checkTimes_iff (a b c : Int) :
    checkTimes a b c = true ↔ (0 ≤ a ∧ 0 < b ∧ a ≤ b ∧ 0 < c) := by
  simp [checkTimes, and_assoc]

/-- C6: constructing a Repeat fails with InvalidRange exactly when one
of `min_times ≥ 0`, `max_times > 0`, `max_times ≥ min_times`,
`step > 0` is violated; when all four hold, construction succeeds. -/
theorem C6_repeat_validation (fields : List Field) (minT maxT stp : Int)
    (e : Enc) (fz : Bool) (nm : Option String) :
    (mkRepeat fields minT maxT stp e fz nm = .error "InvalidRange" ↔
      ¬ (0 ≤ minT ∧ 0 < maxT ∧ minT ≤ maxT ∧ 0 < stp)) ∧
    ((0 ≤ minT ∧ 0 < maxT ∧ minT ≤ maxT ∧ 0 < stp) →
      mkRepeat fields minT maxT stp e fz nm =
        .ok (.cont nm fz e (.rep minT.toNat maxT.toNat stp.toNat) fields (-1) 0 false 0)) := by
  by_cases h : (0 ≤ minT ∧ 0 < maxT ∧ minT ≤ maxT ∧ 0 < stp)
  · have hc : checkTimes minT maxT stp = true := (checkTimes_iff _ _ _).mpr h
    constructor
    · simp [mkRepeat, hc, h]
    · intro _
      simp [mkRepeat, hc]
  · have hc : ¬ checkTimes minT maxT stp = true := by
      rw [checkTimes_iff]
      exact h
    constructor
    · simp [mkRepeat, hc, h]
    · intro hcon
      exact absurd hcon h

/-- The construction-time state of a TakeFrom container
(TakeFrom.__init__, container.py lines 623-639): the number of direct
children, the min/max element arguments exactly as passed (Python None
is `none`), the seed constant 0x1234, the RNG state and the ready
flag. -/
structure TFState where
  numFields : Nat
  minElements : Option Int
  maxElements : Option Int
  tfSeed : Int
  rng : Int
  tfReady : Bool
deriving DecidableEq, Repr

/-- TakeFrom.__init__ (container.py lines 623-639): store the given
min_elements/max_elements, set seed = 0x1234 and an unseeded RNG.  The
Python parameter defaults are `min_elements=1`, `max_elements=None`:
calling the constructor without these arguments is `tfInit nf (some 1)
none`. -/
def tfInit (nf : Nat) (minE maxE : Option Int) : TFState :=
  ⟨nf, minE, maxE, 4660, 0, false⟩

/-- TakeFrom._get_ready (container.py lines 641-650): when not ready,
replace a None min_elements by 0 and a None max_elements by the number
of fields, cap max_elements at the number of fields, and seed the RNG
with `seed * max_elements + min_elements` (the subsequent
`_rebuild_fields` sampling consumes RNG output but is not needed for
the seeding claim). -/
def tfGetReady (s : TFState) : TFState :=
  if s.tfReady then s
  else
    let mn := s.minElements.getD 0
    let mx := min (s.maxElements.getD s.numFields) (s.numFields : Int)
    ⟨s.numFields, some mn, some mx, s.tfSeed, s.tfSeed * mx + mn, true⟩

/-- TakeFrom.reset (container.py lines 682-684): re-seed the RNG with
`seed * max_elements + min_elements`. -/
def tfReset (s : TFState) : TFState :=
  ⟨s.numFields, s.minElements, s.maxElements, s.tfSeed,
    s.tfSeed * s.maxElements.getD 0 + s.minElements.getD 0, s.tfReady⟩

/-- C7 (amended): for a TakeFrom constructed with `max_elements` not
given, get_ready resolves `max_elements` to `len(fields)`; an explicit
`min_elements=None` resolves to 0, but `min_elements` *not given* uses
the Python parameter default 1 (not 0 as the claim states); the RNG is
seeded with `0x1234 * max_elements + min_elements` at get_ready, and
`reset` re-seeds it with that same value. -/
theorem C7_takefrom_defaults_and_seed (nf : Nat) (mnE : Option Int) :
    (tfGetReady (tfInit nf mnE none)).maxElements = some (nf : Int) ∧
    (tfGetReady (tfInit nf mnE none)).minElements = some (mnE.getD 0) ∧
    (tfGetReady (tfInit nf mnE none)).rng = 4660 * (nf : Int) + mnE.getD 0 ∧
    (tfReset (tfGetReady (tfInit nf mnE none))).rng =
      (tfGetReady (tfInit nf mnE none)).rng ∧
    (tfGetReady (tfInit nf (some 1) none)).minElements = some 1 := by
  refine ⟨?_, ?_, ?_, ?_, ?_⟩ <;>
    simp [tfInit, tfGetReady, tfReset, mul_comm]

/-- Counterexample to C7 as stated: a TakeFrom over 3 fields built with
the constructor's own defaults (`min_elements=1` in Python, i.e. not
given) has `min_elements = 1` after get_ready, not 0. -/
theorem C7_counterexample :
    (tfGetReady (tfInit 3 (some 1) none)).minElements = some 1 ∧
      (tfGetReady (tfInit 3 (some 1) none)).minElements ≠ some 0 := by
  constructor <;> decide

/-- The default rendering of a field: its rendering in the reset
state. -/
def defaultRender (f : Field) : Bits := renderF (resetF f)

theorem renderIdx_get (ch : List Field) (i : Nat) (hi : i < ch.length) :
    renderIdx ch i = renderF (ch.get ⟨i, hi⟩) := by
  induction ch generalizing i with
  | nil => simp at hi
  | cons c cs ih =>
    cases i with
    | zero => rw [renderIdx]; rfl
    | succ j =>
      rw [renderIdx]
      exact ih j (by simpa using hi)

/-- During the first `len(fields)` mutations of a OneOf, the i-th
mutation only moves the cursor to child i; the children stay
untouched. -/
theorem oneOf_mutK_first (n : Option String) (e : Enc) (ch : List Field)
    (rd : Bool) (st : Nat) (i : Nat) (hi : i < ch.length) :
    mutK (i + 1) (.cont n true e .oneOf ch (-1) 0 rd st) =
      .cont n true e .oneOf ch (i : Int) i rd st := by
  have hnum : ∀ (ci : Int) (fi : Nat),
      numMut (Field.cont n true e .oneOf ch ci fi rd st) =
        (ch.map numMut).sum + ch.length := by
    intro ci fi
    rw [numMut_cont]
    simp [calcMut]
  induction i with
  | zero =>
    have hlen : 1 ≤ ch.length := hi
    have hne : ciOf (Field.cont n true e .oneOf ch (-1) 0 rd st) ≠
        (numMut (Field.cont n true e .oneOf ch (-1) 0 rd st) : Int) - 1 := by
      rw [hnum]
      simp only [ciOf]
      intro hcon
      have : ((ch.map numMut).sum + ch.length : Int) = 0 := by omega
      have h2 : ((ch.map numMut).sum + ch.length : Nat) = 0 := by exact_mod_cast this
      omega
    rw [mutK, mutK, mutGo, mutateF_of_not_last hne, setCi]
    simp only [ciOf]
    norm_num
    simp only [doMutate]
    have hlt : (0 : Int) < (ch.length : Int) := by exact_mod_cast hlen
    rw [if_pos hlt]
    simp
  | succ j ih =>
    have hj : j < ch.length := by omega
    rw [mutK, ih hj]
    have hne : ciOf (Field.cont n true e .oneOf ch (j : Int) j rd st) ≠
        (numMut (Field.cont n true e .oneOf ch (j : Int) j rd st) : Int) - 1 := by
      rw [hnum]
      simp only [ciOf]
      intro hcon
      have : (j : Int) + 1 = ((ch.map numMut).sum + ch.length : Nat) := by omega
      have h2 : j + 1 = (ch.map numMut).sum + ch.length := by exact_mod_cast this
      omega
    rw [mutGo, mutateF_of_not_last hne, setCi]
    simp only [ciOf]
    simp only [doMutate]
    have hlt : (j : Int) + 1 < (ch.length : Int) := by exact_mod_cast hi
    rw [if_pos hlt]
    have htn : ((j : Int) + 1).toNat = j + 1 := by omega
    rw [htn]
    norm_num

/-- C4: for a fuzzable OneOf with the default encoder, the total
mutation count is the children's sum plus the number of children;
mutation i (0-indexed, i < n) moves the cursor to child i leaving every
child untouched, and `render()` then returns exactly child i's default
render. -/
theorem C4_oneof_first_renders (n : Option String) (ch : List Field)
    (rd : Bool) (st : Nat) (i : Nat) (hi : i < ch.length)
    (hfresh : ∀ c ∈ ch, resetF c = c) :
    numMut (.cont n true Enc.dflt .oneOf ch (-1) 0 rd st) =
      (ch.map numMut).sum + ch.length ∧
    mutK (i + 1) (.cont n true Enc.dflt .oneOf ch (-1) 0 rd st) =
      .cont n true Enc.dflt .oneOf ch (i : Int) i rd st ∧
    renderF (mutK (i + 1) (.cont n true Enc.dflt .oneOf ch (-1) 0 rd st)) =
      defaultRender (ch.get ⟨i, hi⟩) := by
  refine ⟨?_, oneOf_mutK_first n Enc.dflt ch rd st i hi, ?_⟩
  · rw [numMut_cont]
    simp [calcMut]
  · rw [oneOf_mutK_first n Enc.dflt ch rd st i hi]
    rw [renderF]
    simp only [Enc.encode]
    rw [renderIdx_get ch i hi, defaultRender, hfresh _ (ch.get_mem i hi)]

/-- Two example leaves for the OneOf witness. -/
def egLeafB : Field := .leaf (some "b") true [false] [[true]] (-1)

theorem egPair_fresh : ∀ c ∈ [egLeafA, egLeafB], resetF c = c := by
  intro c hc
  simp only [List.mem_cons, List.not_mem_nil, or_false] at hc
  rcases hc with rfl | rfl <;> rfl

theorem C4_witness :
    (0 < [egLeafA, egLeafB].length ∧ (∀ c ∈ [egLeafA, egLeafB], resetF c = c)) ∧
      renderF (mutK (0 + 1) (.cont none true Enc.dflt .oneOf [egLeafA, egLeafB] (-1) 0 true 0)) =
        defaultRender ([egLeafA, egLeafB].get ⟨0, by decide⟩) :=
  ⟨⟨by decide, egPair_fresh⟩,
    (C4_oneof_first_renders none [egLeafA, egLeafB] true 0 0 (by decide) egPair_fresh).2.2⟩

theorem renderL_eq_flatten (ch : List Field) :
    renderL ch = (ch.map renderF).flatten := by
  induction ch with
  | nil => simp [renderL]
  | cons c cs ih => simp [renderL, ih]

/-- During the length phase of a Repeat (the first
`(max_times - min_times) / step` mutations), mutation k only moves the
current index to k; the children and the cursor stay untouched. -/
theorem repeat_mutK_length_phase (n : Option String) (e : Enc) (ch : List Field)
    (rd : Bool) (st : Nat) (mn mx stp : Nat) (k : Nat)
    (hk : k < (mx - mn) / stp) :
    mutK (k + 1) (.cont n true e (.rep mn mx stp) ch (-1) 0 rd st) =
      .cont n true e (.rep mn mx stp) ch (k : Int) 0 rd st := by
  have hnum : ∀ (ci : Int) (fi : Nat),
      numMut (Field.cont n true e (.rep mn mx stp) ch ci fi rd st) =
        (ch.map numMut).sum + (mx - mn) / stp := by
    intro ci fi
    rw [numMut_cont]
    simp [calcMut]
  induction k with
  | zero =>
    have hne : ciOf (Field.cont n true e (.rep mn mx stp) ch (-1) 0 rd st) ≠
        (numMut (Field.cont n true e (.rep mn mx stp) ch (-1) 0 rd st) : Int) - 1 := by
      rw [hnum]
      simp only [ciOf]
      intro hcon
      omega
    rw [mutK, mutK, mutGo, mutateF_of_not_last hne, setCi]
    simp only [ciOf]
    norm_num
    simp only [doMutate]
    have hlt : (0 : Int) < (((mx - mn) / stp : Nat) : Int) := by exact_mod_cast hk
    rw [if_pos hlt]
  | succ j ih =>
    have hj : j < (mx - mn) / stp := by omega
    rw [mutK, ih hj]
    have hne : ciOf (Field.cont n true e (.rep mn mx stp) ch (j : Int) 0 rd st) ≠
        (numMut (Field.cont n true e (.rep mn mx stp) ch (j : Int) 0 rd st) : Int) - 1 := by
      rw [hnum]
      simp only [ciOf]
      intro hcon
      omega
    rw [mutGo, mutateF_of_not_last hne, setCi]
    simp only [ciOf]
    simp only [doMutate]
    have hlt : (j : Int) + 1 < (((mx - mn) / stp : Nat) : Int) := by exact_mod_cast hk
    rw [if_pos hlt]
    norm_num

/-- C5: for a fuzzable Repeat(min_times, max_times, step) with the
default encoder, num_mutations is the children sum plus
`repeats = (max_times - min_times) / step` (integer division); during
the length phase, the k-th mutation (0-indexed, k < repeats) leaves the
children untouched and `render()` produces exactly `min_times + k*step`
copies of the concatenated default renders of the children. -/
theorem C5_repeat_length_phase (n : Option String) (ch : List Field) (rd : Bool)
    (st : Nat) (mn mx stp : Nat) (k : Nat) (hk : k < (mx - mn) / stp)
    (hfresh : ∀ c ∈ ch, resetF c = c) :
    numMut (.cont n true Enc.dflt (.rep mn mx stp) ch (-1) 0 rd st) =
      (ch.map numMut).sum + (mx - mn) / stp ∧
    mutK (k + 1) (.cont n true Enc.dflt (.rep mn mx stp) ch (-1) 0 rd st) =
      .cont n true Enc.dflt (.rep mn mx stp) ch (k : Int) 0 rd st ∧
    renderF (mutK (k + 1) (.cont n true Enc.dflt (.rep mn mx stp) ch (-1) 0 rd st)) =
      (List.replicate (mn + k * stp) ((ch.map defaultRender).flatten)).flatten := by
  have hmut := repeat_mutK_length_phase n Enc.dflt ch rd st mn mx stp k hk
  refine ⟨?_, hmut, ?_⟩
  · rw [numMut_cont]
    simp [calcMut]
  · rw [hmut, renderF]
    simp only [Enc.encode]
    have hnum : numMut (Field.cont n true Enc.dflt (.rep mn mx stp) ch (k : Int) 0 rd st) =
        (ch.map numMut).sum + (mx - mn) / stp := by
      rw [numMut_cont]
      simp [calcMut]
    have hcond : (0 : Int) ≤ (k : Int) ∧
        (k : Int) < (numMut (Field.cont n true Enc.dflt (.rep mn mx stp) ch (k : Int) 0 rd st) : Int) ∧
        (k : Int) < (((mx - mn) / stp : Nat) : Int) := by
      refine ⟨by positivity, ?_, by exact_mod_cast hk⟩
      rw [hnum]
      have : k < (ch.map numMut).sum + (mx - mn) / stp := by omega
      exact_mod_cast this
    rw [if_pos hcond]
    have htn : ((k : Int)).toNat = k := by omega
    rw [htn, renderL_eq_flatten]
    have hmapd : ch.map renderF = ch.map defaultRender :=
      List.map_congr_left fun c hc => by rw [defaultRender, hfresh c hc]
    rw [hmapd]

theorem C5_witness :
    (0 < (10 - 5) / 5 ∧ (∀ c ∈ [egLeafA], resetF c = c)) ∧
      renderF (mutK (0 + 1) (.cont none true Enc.dflt (.rep 5 10 5) [egLeafA] (-1) 0 true 0)) =
        (List.replicate (5 + 0 * 5) (([egLeafA].map defaultRender).flatten)).flatten :=
  ⟨⟨by decide, by intro c hc; simp only [List.mem_singleton] at hc; subst hc; rfl⟩,
    (C5_repeat_length_phase none [egLeafA] true 0 5 10 5 0 (by decide)
      (by intro c hc; simp only [List.mem_singleton] at hc; subst hc; rfl)).2.2⟩

/-- Direct-child lookup by name (`_fields_dict`, maintained by push,
container.py lines 252-257; names are unique among siblings so the
first match is the only one). -/
def findNamed (ch : List Field) (key : String) : Option Field :=
  ch.find? (fun c => decide (nameOf c = some key))

mutual
/-- Container.scan_for_field (container.py lines 131-147): the
container itself if its name matches, else a direct child by name, else
a recursive scan of the container children in order.  A leaf does not
scan. -/
def scanForField : Field → String → Option Field
  | .leaf _ _ _ _ _, _ => none
  | .cont n fz e v ch ci fi rd st, key =>
    if n = some key then some (.cont n fz e v ch ci fi rd st)
    else
      match findNamed ch key with
      | some c => some c
      | none => scanChildren ch key

/-- Scan each container child in order (leaves are skipped, as in the
isinstance check of scan_for_field). -/
def scanChildren : List Field → String → Option Field
  | [], _ => none
  | c :: fs, key =>
    match c with
    | .leaf _ _ _ _ _ => scanChildren fs key
    | .cont n2 fz2 e2 v2 ch2 ci2 fi2 rd2 st2 =>
      match scanForField (.cont n2 fz2 e2 v2 ch2 ci2 fi2 rd2 st2) key with
      | some r => some r
      | none => scanChildren fs key
end

/-- The chain of fields from the field addressed by `path` (a list of
child indices) up to `f`, innermost first. -/
def chainTo (f : Field) : List Nat → List Field
  | [] => [f]
  | i :: p =>
    match (childrenOf f)[i]? with
    | some c => chainTo c p ++ [f]
    | none => [f]

/-- First hit of scan_for_field along a chain of scopes. -/
def firstScan : List Field → String → Option Field
  | [], _ => none
  | f :: rest, key =>
    match scanForField f key with
    | some r => some r
    | none => firstScan rest key

/-- Modelled from the spec: `resolve_field` (BaseField.resolve_field is
not under src/; spec section 4.5): starting from the field addressed by
`path`, scan each enclosing scope from the innermost outward and return
the first hit; `none` models the UnresolvedField failure. -/
def resolveFrom (root : Field) (path : List Nat) (key : String) : Option Field :=
  firstScan (chainTo root path) key

/-- Template.__init__ (container.py lines 699-720): a template whose
name argument is None is named the string Template. -/
def mkTemplate (fields : List Field) (e : Enc) (fz : Bool) (nm : Option String) : Field :=
  .cont (some (nm.getD "Template")) fz e .template fields (-1) 0 false 0

mutual
/-- No field of this subtree carries the given name. -/
def noNamed : String → Field → Bool
  | key, .leaf n _ _ _ _ => !(decide (n = some key))
  | key, .cont n _ _ _ ch _ _ _ _ => !(decide (n = some key)) && noNamedL key ch

/-- No field of these subtrees carries the given name. -/
def noNamedL : String → List Field → Bool
  | _, [] => true
  | key, c :: fs => noNamed key c && noNamedL key fs
end

theorem noNamed_name {key : String} {c : Field} (h : noNamed key c = true) :
    nameOf c ≠ some key := by
  cases c with
  | leaf n fz d ms ci =>
    rw [noNamed] at h
    simpa [nameOf] using h
  | cont n fz e v ch ci fi rd st =>
    rw [noNamed, Bool.and_eq_true] at h
    simpa [nameOf] using h.1

theorem noNamedL_mem {key : String} {fs : List Field} (h : noNamedL key fs = true) :
    ∀ c ∈ fs, noNamed key c = true := by
  induction fs with
  | nil => intro c hc; cases hc
  | cons a as ih =>
    rw [noNamedL, Bool.and_eq_true] at h
    intro c hc
    rcases hc with _ | hc
    · exact h.1
    · exact ih h.2 c (by assumption)

theorem noNamed_children {key : String} {f : Field} (h : noNamed key f = true) :
    ∀ c ∈ childrenOf f, noNamed key c = true := by
  cases f with
  | leaf n fz d ms ci => intro c hc; simp [childrenOf] at hc
  | cont n fz e v ch ci fi rd st =>
    rw [noNamed, Bool.and_eq_true] at h
    simpa [childrenOf] using noNamedL_mem h.2

theorem findNamed_none {key : String} {ch : List Field}
    (h : ∀ c ∈ ch, noNamed key c = true) : findNamed ch key = none := by
  rw [findNamed, List.find?_eq_none]
  intro c hc
  simpa using noNamed_name (h c hc)

/-- A subtree that nowhere carries the name is invisible to
scan_for_field. -/
theorem scanForField_none {key : String} :
    ∀ f : Field, noNamed key f = true → scanForField f key = none := by
  intro f
  induction f using Field.recMem with
  | hl n fz d ms ci => intro _; rw [scanForField]
  | hc n fz e v ch ci fi rd st IH =>
    intro h
    have hname : (n : Option String) ≠ some key := noNamed_name h
    have hch : ∀ c ∈ ch, noNamed key c = true := by
      simpa [childrenOf] using noNamed_children h
    rw [scanForField, if_neg hname, findNamed_none hch]
    clear h hname
    induction ch with
    | nil => rw [scanChildren]
    | cons c cs ihc =>
      have hc := hch c (by simp)
      have hcs : ∀ x ∈ cs, noNamed key x = true := fun x hx => hch x (by simp [hx])
      have ihcs := ihc (fun x hx => IH x (by simp [hx])) hcs
      cases c with
      | leaf n2 fz2 d2 ms2 ci2 => rw [scanChildren]; exact ihcs
      | cont n2 fz2 e2 v2 ch2 ci2 fi2 rd2 st2 =>
        rw [scanChildren, IH _ (by simp) hc]
        exact ihcs

theorem firstScan_append_none {key : String} {xs : List Field}
    (h : firstScan xs key = none) (ys : List Field) :
    firstScan (xs ++ ys) key = firstScan ys key := by
  induction xs with
  | nil => simp
  | cons a as ih =>
    rw [firstScan] at h
    rcases hs : scanForField a key with _ | r
    · rw [hs] at h
      rw [List.cons_append, firstScan, hs]
      exact ih h
    · rw [hs] at h
      simp at h

theorem firstScan_chain_none {key : String} :
    ∀ (p : List Nat) (f : Field), noNamed key f = true →
      firstScan (chainTo f p) key = none := by
  intro p
  induction p with
  | nil =>
    intro f hf
    rw [chainTo, firstScan, scanForField_none f hf, firstScan]
  | cons i q ih =>
    intro f hf
    rw [chainTo]
    rcases hc : (childrenOf f)[i]? with _ | c
    · rw [firstScan, scanForField_none f hf, firstScan]
    · have hcmem : c ∈ childrenOf f := by
        exact List.getElem?_mem hc
      have hcn : noNamed key c = true := noNamed_children hf c hcmem
      rw [firstScan_append_none (ih c hcn) [f], firstScan,
        scanForField_none f hf, firstScan]

/-- C10 (amended): a Template constructed with name None is named the
string Template and therefore participates in name resolution; from any
descendant, resolve_field of the string Template reaches the root,
provided no other field of the tree is named Template (an inner field
named Template shadows the root: see the counterexample). -/
theorem C10_template_default_name (fields : List Field) (e : Enc) (fz : Bool)
    (path : List Nat) (hnn : ∀ c ∈ fields, noNamed "Template" c = true) :
    nameOf (mkTemplate fields e fz none) = some "Template" ∧
      resolveFrom (mkTemplate fields e fz none) path "Template" =
        some (mkTemplate fields e fz none) := by
  refine ⟨rfl, ?_⟩
  have hroot : scanForField (mkTemplate fields e fz none) "Template" =
      some (mkTemplate fields e fz none) := by
    rw [mkTemplate, scanForField]
    simp
  rcases path with _ | ⟨i, q⟩
  · rw [resolveFrom, chainTo, firstScan, hroot]
  · rw [resolveFrom, chainTo]
    rcases hc : (childrenOf (mkTemplate fields e fz none))[i]? with _ | c
    · rw [firstScan, hroot]
    · have hcmem : c ∈ childrenOf (mkTemplate fields e fz none) :=
        List.getElem?_mem hc
      have hcn : noNamed "Template" c = true := by
        apply hnn
        simpa [mkTemplate, childrenOf] using hcmem
      rw [firstScan_append_none (firstScan_chain_none q c hcn)
        [mkTemplate fields e fz none], firstScan, hroot]

/-- An unnamed leaf inside the shadowing container. -/
def shadowLeaf : Field := .leaf (some "x") true [] [] (-1)

/-- A plain inner container named Template: legal (sibling names are
unique) but it shadows the root during name resolution. -/
def shadowInner : Field := .cont (some "Template") true .dflt .plain [shadowLeaf] (-1) 0 false 0

/-- A root template with default name enclosing the shadowing
container. -/
def shadowRoot : Field := mkTemplate [shadowInner] .byteAligned true none

/-- Counterexample to C10 as stated: from the leaf descendant (path
[0,0]) resolve_field of the string Template returns the inner shadowing
container, not the root. -/
theorem C10_counterexample :
    resolveFrom shadowRoot [0, 0] "Template" = some shadowInner ∧
      shadowInner ≠ shadowRoot := by
  constructor
  · rfl
  · intro h
    rw [shadowInner, shadowRoot, mkTemplate] at h
    simp at h

theorem C10_witness :
    (∀ c ∈ [egLeafA], noNamed "Template" c = true) ∧
      resolveFrom (mkTemplate [egLeafA] .byteAligned true none) [0] "Template" =
        some (mkTemplate [egLeafA] .byteAligned true none) :=
  ⟨by decide,
    (C10_template_default_name [egLeafA] .byteAligned true [0] (by decide)).2⟩

theorem ciOf_of_fresh {c : Field} (h : resetF c = c) : ciOf c = -1 := by
  have := ciOf_resetF c
  rwa [h] at this

theorem freshL_map_reset {fs : List Field} (h : ∀ c ∈ fs, resetF c = c) :
    fs.map resetF = fs := by
  have h2 : fs.map resetF = fs.map id := List.map_congr_left (fun c hc => h c hc)
  rw [h2, List.map_id]

/-- A fresh field's m-th mutate call succeeds while m is below its
mutation count. -/
theorem mutateF_mutK_true {c : Field} (hfr : resetF c = c) {m : Nat}
    (hm : m < numMut c) : mutateF (mutK m c) = (mutK (m + 1) c, true) := by
  have h1 : (mutateF (mutK m c)).1 = mutK (m + 1) c := rfl
  have h2 : (mutateF (mutK m c)).2 = true := by
    have := mutRes_mutK (ciOf_of_fresh hfr) m
    rw [mutRes] at this
    rw [this]
    simp [hm]
  calc mutateF (mutK m c) = ((mutateF (mutK m c)).1, (mutateF (mutK m c)).2) := rfl
    _ = (mutK (m + 1) c, true) := by rw [h1, h2]

/-- A fresh field's mutate call fails once exhausted, leaving the state
unchanged. -/
theorem mutateF_mutK_false {c : Field} (hfr : resetF c = c) :
    mutateF (mutK (numMut c) c) = (mutK (numMut c) c, false) := by
  have h2 : (mutateF (mutK (numMut c) c)).2 = false := by
    have := mutRes_mutK (ciOf_of_fresh hfr) (numMut c)
    rw [mutRes] at this
    rw [this]
    simp
  have h1 : (mutateF (mutK (numMut c) c)).1 = mutK (numMut c) c :=
    mutateF_false_fix h2
  calc mutateF (mutK (numMut c) c)
      = ((mutateF (mutK (numMut c) c)).1, (mutateF (mutK (numMut c) c)).2) := rfl
    _ = (mutK (numMut c) c, false) := by rw [h1, h2]

/-- The children configuration after the (k+1)-th successful odometer
step from a fresh child list: the child in whose range k falls sits at
its local mutation index, everything before is back at fresh,
everything after is untouched. -/
def odoConf : List Field → Nat → List Field
  | [], _ => []
  | c :: fs, k =>
    if k < numMut c then mutK (k + 1) c :: fs
    else c :: odoConf fs (k - numMut c)

/-- The cursor position after the (k+1)-th successful odometer step:
the position of the child in whose range k falls. -/
def odoFi : List Field → Nat → Nat
  | [], _ => 0
  | c :: fs, k =>
    if k < numMut c then 0
    else odoFi fs (k - numMut c) + 1

/-- An all-exhausted (sum zero) fresh child list fails immediately,
every child reset in place and the cursor on the last child. -/
theorem odoStep_zero_sum (fs : List Field) (hf : ∀ c ∈ fs, resetF c = c)
    (hs : sumNum fs = 0) :
    odoStep fs 0 = (fs, fs.length - 1, false) := by
  induction fs with
  | nil => simp
  | cons c cs ih =>
    rw [sumNum] at hs
    have hc0 : numMut c = 0 := by omega
    have hcs0 : sumNum cs = 0 := by omega
    have hcf : resetF c = c := hf c (by simp)
    have hmf : mutateF c = (c, false) := by
      have := mutateF_mutK_false (c := c) hcf
      rw [hc0] at this
      exact this
    rw [odoStep_zero_false cs hmf, hcf]
    cases cs with
    | nil => simp
    | cons d ds =>
      have ihds := ih (fun x hx => hf x (List.mem_cons_of_mem c hx)) hcs0
      rw [ihds]
      simp

/-- First odometer step on a fresh child list with at least one
mutation available: it succeeds and lands on configuration 0. -/
theorem odoStep_start (fs : List Field) (hf : ∀ c ∈ fs, resetF c = c)
    (hs : 0 < sumNum fs) :
    odoStep fs 0 = (odoConf fs 0, odoFi fs 0, true) := by
  induction fs with
  | nil => rw [sumNum] at hs; omega
  | cons c cs ih =>
    have hcf : resetF c = c := hf c (by simp)
    by_cases hc : 0 < numMut c
    · have hmf : mutateF c = (mutK 1 c, true) := by
        have := mutateF_mutK_true (c := c) hcf (m := 0) hc
        simpa [mutK] using this
      rw [odoStep_zero_true cs hmf, odoConf, odoFi, if_pos hc, if_pos hc]
    · have hc0 : numMut c = 0 := by omega
      have hmf : mutateF c = (c, false) := by
        have := mutateF_mutK_false (c := c) hcf
        rw [hc0] at this
        exact this
      rw [sumNum] at hs
      have hcs : 0 < sumNum cs := by omega
      have hne : cs ≠ [] := by
        intro hnil
        rw [hnil, sumNum] at hcs
        omega
      have ihcs := ih (fun x hx => hf x (List.mem_cons_of_mem c hx)) hcs
      have hconf : odoConf (c :: cs) 0 = c :: odoConf cs 0 := by
        rw [odoConf, if_neg hc, hc0]
      have hfi : odoFi (c :: cs) 0 = odoFi cs 0 + 1 := by
        rw [odoFi, if_neg hc, hc0]
      rw [odoStep_zero_false cs hmf, hcf, ihcs, hconf, hfi]
      simp [List.isEmpty_iff, hne]

/-- Middle odometer step: from configuration k (with k+1 still below
the total), the step succeeds and lands on configuration k+1. -/
theorem odoStep_next (fs : List Field) (hf : ∀ c ∈ fs, resetF c = c) :
    ∀ k : Nat, k + 1 < sumNum fs →
      odoStep (odoConf fs k) (odoFi fs k) = (odoConf fs (k + 1), odoFi fs (k + 1), true) := by
  induction fs with
  | nil => intro k hk; rw [sumNum] at hk; omega
  | cons c cs ih =>
    intro k hk
    have hcf : resetF c = c := hf c (by simp)
    rw [sumNum] at hk
    by_cases hkc : k < numMut c
    · have hck : odoConf (c :: cs) k = mutK (k + 1) c :: cs := by
        rw [odoConf, if_pos hkc]
      have hfk : odoFi (c :: cs) k = 0 := by
        rw [odoFi, if_pos hkc]
      rw [hck, hfk]
      by_cases hkc1 : k + 1 < numMut c
      · have hmf := mutateF_mutK_true (c := c) hcf (m := k + 1) hkc1
        have hck1 : odoConf (c :: cs) (k + 1) = mutK (k + 2) c :: cs := by
          rw [odoConf, if_pos hkc1]
        have hfk1 : odoFi (c :: cs) (k + 1) = 0 := by
          rw [odoFi, if_pos hkc1]
        rw [odoStep_zero_true cs hmf, hck1, hfk1]
      · have hkeq : k + 1 = numMut c := by omega
        have hmf : mutateF (mutK (k + 1) c) = (mutK (k + 1) c, false) := by
          have := mutateF_mutK_false (c := c) hcf
          rw [← hkeq] at this
          exact this
        have hres : resetF (mutK (k + 1) c) = c := by
          rw [resetF_mutK, hcf]
        have hcs : 0 < sumNum cs := by omega
        have hne : cs ≠ [] := by
          intro hnil
          rw [hnil, sumNum] at hcs
          omega
        have hck1 : odoConf (c :: cs) (k + 1) = c :: odoConf cs 0 := by
          rw [odoConf, if_neg (by omega)]
          rw [show k + 1 - numMut c = 0 from by omega]
        have hfk1 : odoFi (c :: cs) (k + 1) = odoFi cs 0 + 1 := by
          rw [odoFi, if_neg (by omega)]
          rw [show k + 1 - numMut c = 0 from by omega]
        rw [odoStep_zero_false cs hmf, hres,
          odoStep_start cs (fun x hx => hf x (List.mem_cons_of_mem c hx)) hcs,
          hck1, hfk1]
        simp [List.isEmpty_iff, hne]
    · have hk1c : ¬ (k + 1 < numMut c) := by omega
      have hck : odoConf (c :: cs) k = c :: odoConf cs (k - numMut c) := by
        rw [odoConf, if_neg hkc]
      have hfk : odoFi (c :: cs) k = odoFi cs (k - numMut c) + 1 := by
        rw [odoFi, if_neg hkc]
      have hck1 : odoConf (c :: cs) (k + 1) = c :: odoConf cs (k - numMut c + 1) := by
        rw [odoConf, if_neg hk1c]
        rw [show k + 1 - numMut c = k - numMut c + 1 from by omega]
      have hfk1 : odoFi (c :: cs) (k + 1) = odoFi cs (k - numMut c + 1) + 1 := by
        rw [odoFi, if_neg hk1c]
        rw [show k + 1 - numMut c = k - numMut c + 1 from by omega]
      have ihcs := ih (fun x hx => hf x (List.mem_cons_of_mem c hx)) (k - numMut c)
        (by omega)
      rw [hck, hfk, hck1, hfk1, odoStep_succ, ihcs]

/-- Last odometer step: from the final configuration the step fails,
every child is back at fresh and the cursor rests on the last child. -/
theorem odoStep_exhaust (fs : List Field) (hf : ∀ c ∈ fs, resetF c = c)
    (hs : 0 < sumNum fs) :
    odoStep (odoConf fs (sumNum fs - 1)) (odoFi fs (sumNum fs - 1)) =
      (fs, fs.length - 1, false) := by
  induction fs with
  | nil => rw [sumNum] at hs; omega
  | cons c cs ih =>
    have hcf : resetF c = c := hf c (by simp)
    have hsum : sumNum (c :: cs) = numMut c + sumNum cs := by rw [sumNum]
    rw [hsum] at hs ⊢
    by_cases hkc : numMut c + sumNum cs - 1 < numMut c
    · have hcs0 : sumNum cs = 0 := by omega
      have hkeq : numMut c + sumNum cs - 1 + 1 = numMut c := by omega
      have hck : odoConf (c :: cs) (numMut c + sumNum cs - 1) =
          mutK (numMut c) c :: cs := by
        rw [odoConf, if_pos hkc, hkeq]
      have hfk : odoFi (c :: cs) (numMut c + sumNum cs - 1) = 0 := by
        rw [odoFi, if_pos hkc]
      rw [hck, hfk]
      have hmf := mutateF_mutK_false (c := c) hcf
      rw [odoStep_zero_false cs hmf]
      have hres : resetF (mutK (numMut c) c) = c := by
        rw [resetF_mutK, hcf]
      have hempty := odoStep_zero_sum cs (fun x hx => hf x (List.mem_cons_of_mem c hx)) hcs0
      rw [hres, hempty]
      cases cs with
      | nil => simp
      | cons d ds => simp
    · have hcs : 0 < sumNum cs := by omega
      have hck : odoConf (c :: cs) (numMut c + sumNum cs - 1) =
          c :: odoConf cs (sumNum cs - 1) := by
        rw [odoConf, if_neg hkc]
        rw [show numMut c + sumNum cs - 1 - numMut c = sumNum cs - 1 from by omega]
      have hfk : odoFi (c :: cs) (numMut c + sumNum cs - 1) =
          odoFi cs (sumNum cs - 1) + 1 := by
        rw [odoFi, if_neg hkc]
        rw [show numMut c + sumNum cs - 1 - numMut c = sumNum cs - 1 from by omega]
      have ihcs := ih (fun x hx => hf x (List.mem_cons_of_mem c hx)) hcs
      rw [hck, hfk, odoStep_succ, ihcs]
      have hlen : cs ≠ [] := by
        intro hnil
        rw [hnil, sumNum] at hcs
        omega
      have hl1 : cs.length - 1 + 1 = cs.length := by
        cases cs with
        | nil => exact absurd rfl hlen
        | cons d ds => simp
      rw [hl1]
      simp

theorem ciOf_mutK_le {c : Field} (hfr : resetF c = c) {m : Nat} (hm : m ≤ numMut c) :
    ciOf (mutK m c) = (m : Int) - 1 := by
  rw [ciOf_mutK (ciOf_of_fresh hfr) m, min_eq_left hm]

/-- Each of the `sumNum` odometer configurations of a fresh child list
is distinct: the selected child and its mutation index identify the
configuration. -/
theorem odoConf_inj (cs : List Field) (hf : ∀ c ∈ cs, resetF c = c) :
    ∀ r1 r2 : Nat, r1 < sumNum cs → r2 < sumNum cs →
      odoConf cs r1 = odoConf cs r2 → r1 = r2 := by
  induction cs with
  | nil => intro r1 r2 h1 h2 _; rw [sumNum] at h1; omega
  | cons c cs ih =>
    intro r1 r2 h1 h2 heq
    have hcf : resetF c = c := hf c (by simp)
    rw [sumNum] at h1 h2
    by_cases hr1 : r1 < numMut c <;> by_cases hr2 : r2 < numMut c
    · rw [odoConf, odoConf, if_pos hr1, if_pos hr2] at heq
      injection heq with hh _
      have e1 : ciOf (mutK (r1 + 1) c) = ((r1 : Int) + 1) - 1 := by
        have := ciOf_mutK_le hcf (m := r1 + 1) (by omega)
        rw [this]
        push_cast
        ring
      have e2 : ciOf (mutK (r2 + 1) c) = ((r2 : Int) + 1) - 1 := by
        have := ciOf_mutK_le hcf (m := r2 + 1) (by omega)
        rw [this]
        push_cast
        ring
      have : ((r1 : Int) + 1) - 1 = ((r2 : Int) + 1) - 1 := by
        rw [← e1, ← e2, hh]
      omega
    · rw [odoConf, odoConf, if_pos hr1, if_neg hr2] at heq
      injection heq with hh _
      have e1 : ciOf (mutK (r1 + 1) c) = ((r1 : Int) + 1) - 1 := by
        have := ciOf_mutK_le hcf (m := r1 + 1) (by omega)
        rw [this]
        push_cast
        ring
      have e2 : ciOf c = -1 := ciOf_of_fresh hcf
      rw [hh, e2] at e1
      omega
    · rw [odoConf, odoConf, if_neg hr1, if_pos hr2] at heq
      injection heq with hh _
      have e2 : ciOf (mutK (r2 + 1) c) = ((r2 : Int) + 1) - 1 := by
        have := ciOf_mutK_le hcf (m := r2 + 1) (by omega)
        rw [this]
        push_cast
        ring
      have e1 : ciOf c = -1 := ciOf_of_fresh hcf
      rw [← hh, e1] at e2
      omega
    · rw [odoConf, odoConf, if_neg hr1, if_neg hr2] at heq
      injection heq with _ ht
      have := ih (fun x hx => hf x (List.mem_cons_of_mem c hx))
        (r1 - numMut c) (r2 - numMut c) (by omega) (by omega) ht
      omega

/-- Odometer configurations keep the children sum. -/
theorem sumNum_odoConf (cs : List Field) (r : Nat) :
    sumNum (odoConf cs r) = sumNum cs := by
  induction cs generalizing r with
  | nil => rw [odoConf]
  | cons c cs ih =>
    rw [odoConf]
    by_cases hr : r < numMut c
    · rw [if_pos hr, sumNum, sumNum, numMut_mutK]
    · rw [if_neg hr, sumNum, sumNum, ih]

/-- The state of a ForEach container together with its already resolved
target field (`_mutated_field` after the lazy resolution of
`_calculate_mutations`, container.py line 333): the target, the child
list, the ForEach's own `_current_index` and `_field_idx`. -/
structure FE where
  target : Field
  ch : List Field
  fci : Int
  ffi : Nat

/-- ForEach._calculate_mutations (container.py lines 332-337): the
children sum times the target's mutation count, the latter replaced by
1 when it is zero. -/
def feNum (s : FE) : Nat :=
  sumNum s.ch * (if numMut s.target = 0 then 1 else numMut s.target)

/-- ForEach._mutate (container.py lines 339-348): on the first mutation
(`_current_index == 0`) first mutate the target; then run the container
odometer on the children; if it fails, reset the children and the
cursor (`reset(False)`, lines 350-358, preserving `_current_index`),
advance the target and run `_mutate` again.  The Python recursion is
modelled with explicit fuel: on every state reachable from a fresh
ForEach the recursion depth is at most 2 (established by the run
characterization below), so the fuel never runs out there. -/
def feDo : Nat → FE → FE
  | 0, s => s
  | fuel + 1, s =>
    let s1 : FE := if s.fci = 0 then ⟨mutGo s.target, s.ch, s.fci, s.ffi⟩ else s
    let r := odoStep s1.ch s1.ffi
    if r.2.2 then ⟨s1.target, r.1, s1.fci, r.2.1⟩
    else feDo fuel ⟨mutGo s1.target, r.1.map resetF, s1.fci, 0⟩

/-- The public mutate of a ForEach: the BaseField driver (modelled from
the spec, structured like BaseModel.mutate) around `feDo`. -/
def feMutate (s : FE) : FE × Bool :=
  if s.fci = (feNum s : Int) - 1 then (s, false)
  else (feDo 2 ⟨s.target, s.ch, s.fci + 1, s.ffi⟩, true)

/-- State of a ForEach after `k` public mutate calls. -/
def feK : Nat → FE → FE
  | 0, s => s
  | k + 1, s => (feMutate (feK k s)).1

/-- A freshly constructed (or reset) ForEach over a resolved target and
a child list. -/
def feInit (t0 : Field) (cs : List Field) : FE := ⟨t0, cs, -1, 0⟩

theorem feNum_feInit (t0 : Field) (cs : List Field) :
    feNum (feInit t0 cs) =
      sumNum cs * (if numMut t0 = 0 then 1 else numMut t0) := rfl

/-- Run characterization of a ForEach: after m+1 mutate calls the
target has been advanced `m / sum + 1` times and the children sit at
odometer configuration `m % sum`. -/
theorem feK_char (t0 : Field) (cs : List Field) (hft : resetF t0 = t0)
    (hfc : ∀ c ∈ cs, resetF c = c) (hs : 0 < sumNum cs) :
    ∀ m : Nat, m < sumNum cs * (if numMut t0 = 0 then 1 else numMut t0) →
      feK (m + 1) (feInit t0 cs) =
        ⟨mutK (m / sumNum cs + 1) t0, odoConf cs (m % sumNum cs),
          (m : Int), odoFi cs (m % sumNum cs)⟩ := by
  have hT : 0 < (if numMut t0 = 0 then 1 else numMut t0) := by
    by_cases h0 : numMut t0 = 0 <;> simp [h0]
    omega
  intro m
  induction m with
  | zero =>
    intro hm
    have hn : 0 < sumNum cs * (if numMut t0 = 0 then 1 else numMut t0) := hm
    rw [feK, feK]
    have hne : (feInit t0 cs).fci ≠ (feNum (feInit t0 cs) : Int) - 1 := by
      rw [feNum_feInit]
      show (-1 : Int) ≠ _
      omega
    rw [feMutate, if_neg hne]
    simp only
    have hstart := odoStep_start cs hfc hs
    simp only [feDo, feInit]
    norm_num
    rw [hstart]
    simp [mutK, mutGo]
  | succ m ih =>
    intro hm
    have ihm := ih (by omega)
    rw [feK, ihm]
    set s := sumNum cs with hsdef
    set q := m / s with hq
    set r := m % s with hr
    have hrs : r < s := Nat.mod_lt m hs
    have hmdec : s * q + r = m := Nat.div_add_mod m s
    have hfeN : feNum ⟨mutK (q + 1) t0, odoConf cs r, (m : Int), odoFi cs r⟩ =
        s * (if numMut t0 = 0 then 1 else numMut t0) := by
      rw [feNum]
      simp only
      rw [sumNum_odoConf, numMut_mutK]
    have hne : ((m : Int)) ≠ ((s * (if numMut t0 = 0 then 1 else numMut t0) : Nat) : Int) - 1 := by
      omega
    rw [feMutate]
    simp only [hfeN]
    rw [if_neg hne]
    simp only
    have hfine : ¬ ((m : Int) + 1 = 0) := by omega
    by_cases hnext : r + 1 < s
    · have hstep := odoStep_next cs hfc r (by omega)
      have hdiv : (m + 1) / s = q := by
        have : m + 1 = s * q + (r + 1) := by omega
        rw [this, Nat.mul_add_div hs, Nat.div_eq_of_lt hnext]
        omega
      have hmod : (m + 1) % s = r + 1 := by
        have : m + 1 = s * q + (r + 1) := by omega
        rw [this, Nat.mul_add_mod, Nat.mod_eq_of_lt hnext]
      simp only [feDo]
      rw [if_neg hfine]
      simp only
      rw [hstep]
      simp only [ite_true]
      rw [hdiv, hmod]
      norm_num
    · have hreq : r + 1 = s := by omega
      have hrs1 : r = s - 1 := by omega
      have hexh := odoStep_exhaust cs hfc hs
      rw [← hsdef] at hexh
      rw [hrs1]
      have hsq : s * (q + 1) = s * q + s := by ring
      have hdiv : (m + 1) / s = q + 1 := by
        have : m + 1 = s * (q + 1) := by omega
        rw [this, Nat.mul_div_cancel_left _ hs]
      have hmod : (m + 1) % s = 0 := by
        have : m + 1 = s * (q + 1) := by omega
        rw [this, Nat.mul_mod_right]
      rw [feDo]
      rw [if_neg hfine]
      simp only
      rw [hexh]
      simp only [Bool.false_eq_true, ite_false]
      rw [freshL_map_reset hfc]
      simp only [feDo]
      rw [if_neg hfine]
      simp only
      rw [odoStep_start cs hfc hs]
      simp only [ite_true]
      rw [hdiv, hmod]
      norm_num
      rfl

/-- The (target state, children state) pair observed after each of the
`num_mutations` mutate calls of a full ForEach enumeration. -/
def fePairs (t0 : Field) (cs : List Field) : List (Field × List Field) :=
  (List.range (sumNum cs * (if numMut t0 = 0 then 1 else numMut t0))).map
    (fun m => ((feK (m + 1) (feInit t0 cs)).target, (feK (m + 1) (feInit t0 cs)).ch))

theorem range_mul_bind {α : Type} (s T : Nat) (hs : 0 < s) (g : Nat → Nat → α) :
    (List.range (s * T)).map (fun m => g (m / s) (m % s)) =
      (List.range T).flatMap (fun q => (List.range s).map (fun r => g q r)) := by
  induction T with
  | zero => simp
  | succ T ih =>
    rw [Nat.mul_succ, List.range_add, List.map_append, ih, List.range_succ,
      List.flatMap_append]
    congr 1
    rw [List.map_map]
    simp only [List.flatMap_cons, List.flatMap_nil, List.append_nil]
    apply List.map_congr_left
    intro r hr
    have hrs : r < s := List.mem_range.mp hr
    simp only [Function.comp]
    rw [Nat.mul_add_div hs, Nat.div_eq_of_lt hrs, Nat.mul_add_mod,
      Nat.mod_eq_of_lt hrs]
    simp

/-- The full product listing of (target state, children configuration)
pairs has no duplicates. -/
theorem feProd_nodup (t0 : Field) (cs : List Field) (hft : resetF t0 = t0)
    (hfc : ∀ c ∈ cs, resetF c = c) :
    ((List.range (if numMut t0 = 0 then 1 else numMut t0)).flatMap
      (fun q => (List.range (sumNum cs)).map
        (fun r => (mutK (q + 1) t0, odoConf cs r)))).Nodup := by
  rw [List.nodup_flatMap]
  constructor
  · intro q _
    apply List.Nodup.map_on
    · intro r1 h1 r2 h2 hpair
      have hsnd : odoConf cs r1 = odoConf cs r2 := congrArg Prod.snd hpair
      exact odoConf_inj cs hfc r1 r2 (List.mem_range.mp h1)
        (List.mem_range.mp h2) hsnd
    · exact List.nodup_range _
  · have hpl : (List.range (if numMut t0 = 0 then 1 else numMut t0)).Pairwise (· < ·) :=
      List.pairwise_lt_range _
    refine List.Pairwise.imp_of_mem ?_ hpl
    intro q1 q2 hq1 hq2 hlt
    intro a ha1 ha2
    rcases List.mem_map.mp ha1 with ⟨r1, _, hae1⟩
    rcases List.mem_map.mp ha2 with ⟨r2, _, hae2⟩
    have hfeq : mutK (q1 + 1) t0 = mutK (q2 + 1) t0 := by
      have := congrArg Prod.fst (hae1.trans hae2.symm)
      simpa using this
    by_cases h0 : numMut t0 = 0
    · rw [h0] at hq2
      simp at hq2
      have hq1lt : q1 < q2 := hlt
      omega
    · have hq2T : q2 < numMut t0 := by
        rw [if_neg h0] at hq2
        exact List.mem_range.mp hq2
      have hq1T : q1 < numMut t0 := by omega
      have e1 : ciOf (mutK (q1 + 1) t0) = ((q1 : Int) + 1) - 1 := by
        have := ciOf_mutK_le hft (m := q1 + 1) (by omega)
        rw [this]
        push_cast
        ring
      have e2 : ciOf (mutK (q2 + 1) t0) = ((q2 : Int) + 1) - 1 := by
        have := ciOf_mutK_le hft (m := q2 + 1) (by omega)
        rw [this]
        push_cast
        ring
      rw [hfeq, e2] at e1
      omega

/-- C3: for a ForEach whose target resolved (the FE state holds the
resolved target), num_mutations is the children sum times
max(target mutation count, 1); and over a full enumeration the
sequence of (target state, children state) pairs is exactly the product
of the target's states with the children's odometer configurations,
without duplicates: every pair occurs exactly once. -/
theorem C3_foreach_cross_product (t0 : Field) (cs : List Field)
    (hft : resetF t0 = t0) (hfc : ∀ c ∈ cs, resetF c = c) :
    feNum (feInit t0 cs) = sumNum cs * max (numMut t0) 1 ∧
    fePairs t0 cs =
      (List.range (if numMut t0 = 0 then 1 else numMut t0)).flatMap
        (fun q => (List.range (sumNum cs)).map
          (fun r => (mutK (q + 1) t0, odoConf cs r))) ∧
    ((List.range (if numMut t0 = 0 then 1 else numMut t0)).flatMap
        (fun q => (List.range (sumNum cs)).map
          (fun r => (mutK (q + 1) t0, odoConf cs r)))).Nodup := by
  refine ⟨?_, ?_, feProd_nodup t0 cs hft hfc⟩
  · rw [feNum_feInit]
    by_cases h0 : numMut t0 = 0
    · rw [h0]
      simp
    · rw [if_neg h0, max_eq_left (by omega)]
  · by_cases hs : 0 < sumNum cs
    · rw [fePairs]
      have hmapeq : (List.range (sumNum cs * (if numMut t0 = 0 then 1 else numMut t0))).map
            (fun m => ((feK (m + 1) (feInit t0 cs)).target, (feK (m + 1) (feInit t0 cs)).ch)) =
          (List.range (sumNum cs * (if numMut t0 = 0 then 1 else numMut t0))).map
            (fun m => (mutK (m / sumNum cs + 1) t0, odoConf cs (m % sumNum cs))) := by
        apply List.map_congr_left
        intro m hm
        rw [feK_char t0 cs hft hfc hs m (List.mem_range.mp hm)]
      rw [hmapeq]
      exact range_mul_bind (sumNum cs) (if numMut t0 = 0 then 1 else numMut t0) hs
        (fun q r => (mutK (q + 1) t0, odoConf cs r))
    · have hs0 : sumNum cs = 0 := by omega
      rw [fePairs, hs0]
      simp

theorem C3_witness :
    (resetF egLeafA = egLeafA ∧ (∀ c ∈ [egLeafB], resetF c = c)) ∧
      feNum (feInit egLeafA [egLeafB]) = sumNum [egLeafB] * max (numMut egLeafA) 1 :=
  ⟨⟨rfl, by intro c hc; simp only [List.mem_singleton] at hc; subst hc; rfl⟩,
    (C3_foreach_cross_product egLeafA [egLeafB] rfl
      (by intro c hc; simp only [List.mem_singleton] at hc; subst hc; rfl)).1⟩

end Kitty
